import Mathlib

/-!
Verification of the tffmt formatting pipeline (pkg/formatter/formatter.go and
cmd/tffmt/main.go) against its natural-language specification.

The pipeline's text passes are Go regular-expression replacements over bytes;
they are embedded here as structurally recursive scanners over `List Char`
that mirror Go's leftmost, non-overlapping, greedy `ReplaceAll` semantics for
each concrete pattern.  The HCL parser/renderer (`hclwrite`) is an external
collaborator: parsing and serialization are abstract parameters, and the tree
transforms (`sortResourceInputs`, `sortVariableBlocks`) are embedded over an
explicit body-item tree that models the `hclwrite` body operations the source
uses (`Attributes`, `RemoveAttribute`, `SetAttributeRaw` which appends a
missing attribute at the end of the body, `RemoveBlock`, `AppendBlock`,
`AppendNewline`).
-/

namespace Tffmt

/-- The character `\x7b` (opening curly brace). -/
def lbC : Char := Char.ofNat 123

/-- The character `\x7d` (closing curly brace). -/
def rbC : Char := Char.ofNat 125

/-- Go's RE2 `\s` class, exactly `[\t\n\f\r ]`: space, tab, newline, form
feed, carriage return. -/
def isSpaceC (c : Char) : Bool :=
  c = ' ' || c = '\t' || c = '\n' || c = '\r' || c = Char.ofNat 12

/-- Go's ordinal (byte-wise) string comparison `<`, restricted to the
character level (identical to byte order on ASCII text).  This is the order
used by `sort.Strings` in `sortResourceInputs` and by the label comparator in
`sortVariableBlocks`. -/
def strLt : List Char → List Char → Bool
  | [], [] => false
  | [], _ :: _ => true
  | _ :: _, [] => false
  | a :: as, b :: bs =>
    if a.toNat < b.toNat then true
    else if b.toNat < a.toNat then false
    else strLt as bs

theorem strLt_asymm : ∀ a b : List Char, strLt a b = true → strLt b a = false
  | [], [] => by simp [strLt]
  | [], _ :: _ => by simp [strLt]
  | _ :: _, [] => by simp [strLt]
  | a :: as, b :: bs => by
    have ih := strLt_asymm as bs
    simp only [strLt]
    split_ifs <;> intro h <;>
      first
      | rfl
      | (exact h.elim)
      | (exact Bool.noConfusion h)
      | omega
      | (exact ih h)

theorem strLt_conn : ∀ a b : List Char, strLt a b = false → strLt b a = false → a = b
  | [], [] => by simp
  | [], _ :: _ => by simp [strLt]
  | _ :: _, [] => by simp [strLt]
  | a :: as, b :: bs => by
    have ih := strLt_conn as bs
    simp only [strLt]
    split_ifs <;> intro hab hba <;>
      first
      | (exact hab.elim)
      | (exact hba.elim)
      | (exact Bool.noConfusion hab)
      | (exact Bool.noConfusion hba)
      | (have hn : a.toNat = b.toNat := by omega
         have hc : a = b := Char.eq_of_val_eq (UInt32.ext hn)
         rw [hc, ih hab hba])

theorem strLt_trans : ∀ a b c : List Char,
    strLt a b = true → strLt b c = true → strLt a c = true
  | [], [], _ => by simp [strLt]
  | [], _ :: _, [] => by simp [strLt]
  | [], _ :: _, _ :: _ => by simp [strLt]
  | _ :: _, [], _ => by simp [strLt]
  | _ :: _, _ :: _, [] => by simp [strLt]
  | a :: as, b :: bs, c :: cs => by
    have ih := strLt_trans as bs cs
    simp only [strLt]
    split_ifs <;> intro h1 h2 <;>
      first
      | rfl
      | (exact h1.elim)
      | (exact h2.elim)
      | (exact Bool.noConfusion h1)
      | (exact Bool.noConfusion h2)
      | omega
      | (exact ih h1 h2)

/-- Negative transitivity needed for insertion-sort correctness:
if `a < c` then `a < b` or `b < c`. -/
theorem strLt_total2 (a b c : List Char) (hac : strLt a c = true) :
    strLt a b = true ∨ strLt b c = true := by
  by_cases hab : strLt a b = true
  · exact Or.inl hab
  · by_cases hba : strLt b a = true
    · exact Or.inr (strLt_trans b a c hba hac)
    · have : a = b :=
        strLt_conn a b (by simpa using hab) (by simpa using hba)
      subst this
      exact Or.inr hac

/-! ### Sorting

`sort.Strings` (in `sortResourceInputs`) and `sort.Slice` (in
`sortVariableBlocks`) sort by a boolean `less` comparator.  Both uses in the
source sort keys that are distinct whenever the input parses (attribute names
are unique within a body), so the sorted result is uniquely determined by the
comparator and is modelled by insertion sort. -/

/-- Insert `x` into `ys`, keeping elements strictly `less` than `x` first. -/
def insertB (less : α → α → Bool) (x : α) : List α → List α
  | [] => [x]
  | y :: ys => if less y x then y :: insertB less x ys else x :: y :: ys

/-- Insertion sort by a boolean comparator. -/
def sortB (less : α → α → Bool) : List α → List α
  | [] => []
  | x :: xs => insertB less x (sortB less xs)

theorem insertB_perm (less : α → α → Bool) (x : α) :
    ∀ ys : List α, List.Perm (insertB less x ys) (x :: ys)
  | [] => List.Perm.refl _
  | y :: ys => by
    simp only [insertB]
    split_ifs
    · exact ((insertB_perm less x ys).cons y).trans (List.Perm.swap x y ys)
    · exact List.Perm.refl _

theorem sortB_perm (less : α → α → Bool) : ∀ l : List α, List.Perm (sortB less l) l
  | [] => List.Perm.refl _
  | x :: xs =>
    (insertB_perm less x (sortB less xs)).trans ((sortB_perm less xs).cons x)

theorem mem_insertB {less : α → α → Bool} {x a : α} {ys : List α}
    (h : a ∈ insertB less x ys) : a = x ∨ a ∈ ys := by
  have := (insertB_perm less x ys).mem_iff.mp h
  simpa using this

theorem mem_sortB {less : α → α → Bool} {a : α} {l : List α}
    (h : a ∈ sortB less l) : a ∈ l := (sortB_perm less l).mem_iff.mp h

/-- Inserting into a list pairwise-ordered by `fun a b => less b a = false`
preserves that ordering, assuming asymmetry and negative transitivity of
`less` on the elements involved. -/
theorem insertB_pairwise {less : α → α → Bool} (x : α) :
    ∀ ys : List α,
    (∀ a ∈ x :: ys, ∀ b ∈ x :: ys, less a b = true → less b a = false) →
    (∀ a ∈ x :: ys, ∀ b ∈ x :: ys, ∀ c ∈ x :: ys,
      less a c = true → less a b = true ∨ less b c = true) →
    ys.Pairwise (fun a b => less b a = false) →
    (insertB less x ys).Pairwise (fun a b => less b a = false)
  | [], _, _, _ => by simp [insertB]
  | y :: ys, hasym, htot, hys => by
    rw [List.pairwise_cons] at hys
    have hup : ∀ a ∈ x :: ys, a ∈ x :: y :: ys := by
      intro a ha
      rcases List.mem_cons.mp ha with rfl | ha
      · exact List.mem_cons_self _ _
      · exact List.mem_cons_of_mem _ (List.mem_cons_of_mem _ ha)
    simp only [insertB]
    split_ifs with hyx
    · refine List.pairwise_cons.mpr ⟨?_, ?_⟩
      · intro a ha
        rcases mem_insertB ha with rfl | ha
        · exact hasym y (by simp) a (by simp) hyx
        · exact hys.1 a ha
      · exact insertB_pairwise x ys
          (fun a ha b hb => hasym a (hup a ha) b (hup b hb))
          (fun a ha b hb c hc => htot a (hup a ha) b (hup b hb) c (hup c hc))
          hys.2
    · refine List.pairwise_cons.mpr ⟨?_, List.pairwise_cons.mpr ⟨hys.1, hys.2⟩⟩
      intro a ha
      rcases List.mem_cons.mp ha with rfl | ha
      · exact Bool.eq_false_iff.mpr hyx
      · cases hax : less a x with
        | false => rfl
        | true =>
          rcases htot a (List.mem_cons_of_mem _ (List.mem_cons_of_mem _ ha))
              y (List.mem_cons_of_mem _ (List.mem_cons_self _ _))
              x (List.mem_cons_self _ _) hax with hay | hyx2
          · rw [hys.1 a ha] at hay
            exact Bool.noConfusion hay
          · exact absurd hyx2 hyx

theorem sortB_pairwise {less : α → α → Bool} :
    ∀ l : List α,
    (∀ a ∈ l, ∀ b ∈ l, less a b = true → less b a = false) →
    (∀ a ∈ l, ∀ b ∈ l, ∀ c ∈ l, less a c = true → less a b = true ∨ less b c = true) →
    (sortB less l).Pairwise (fun a b => less b a = false)
  | [], _, _ => by simp [sortB]
  | x :: xs, hasym, htot => by
    simp only [sortB]
    have hmem : ∀ a ∈ x :: sortB less xs, a ∈ x :: xs := by
      intro a ha
      rcases List.mem_cons.mp ha with rfl | ha
      · exact List.mem_cons_self _ _
      · exact List.mem_cons_of_mem _ (mem_sortB ha)
    refine insertB_pairwise x (sortB less xs)
      (fun a ha b hb h => hasym a (hmem a ha) b (hmem b hb) h)
      (fun a ha b hb c hc h => htot a (hmem a ha) b (hmem b hb) c (hmem c hc) h)
      (sortB_pairwise xs
        (fun a ha b hb h => hasym a (List.mem_cons_of_mem _ ha) b (List.mem_cons_of_mem _ hb) h)
        (fun a ha b hb c hc h => htot a (List.mem_cons_of_mem _ ha)
          b (List.mem_cons_of_mem _ hb) c (List.mem_cons_of_mem _ hc) h))

/-! ### Regex text passes (formatter.go lines 17-22, 37-56, 59-76)

Each Go `regexp.ReplaceAll` call is embedded as a left-to-right scanner with
the same leftmost, non-overlapping, greedy match semantics as Go's regexp
engine on that concrete pattern. -/

/-- Model of `reOpenParenBrace.ReplaceAll`: the pattern is an open parenthesis,
optional whitespace, then an open brace; the replacement is the pair split by
one newline (the matched whitespace is discarded).  `pend = some ws` records
that an open parenthesis followed by the whitespace `ws` (reversed) has been
read but not yet resolved into a match or a failure. -/
def opbAux (pend : Option (List Char)) : List Char → List Char
  | [] =>
    match pend with
    | some ws => '(' :: ws.reverse
    | none => []
  | c :: cs =>
    match pend with
    | some ws =>
      if c = lbC then '(' :: '\n' :: lbC :: opbAux none cs
      else if isSpaceC c then opbAux (some (c :: ws)) cs
      else if c = '(' then ('(' :: ws.reverse) ++ opbAux (some []) cs
      else ('(' :: ws.reverse) ++ c :: opbAux none cs
    | none =>
      if c = '(' then opbAux (some []) cs
      else c :: opbAux none cs

/-- Model of `reOpenParenBrace.ReplaceAll(in, "(\n\x7b")`. -/
def openParenBrace (l : List Char) : List Char := opbAux none l

/-- Model of `reCloseBraceParen.ReplaceAll`: close brace, optional whitespace, close
parenthesis, replaced by the pair split by one newline. -/
def cbpAux (pend : Option (List Char)) : List Char → List Char
  | [] =>
    match pend with
    | some ws => rbC :: ws.reverse
    | none => []
  | c :: cs =>
    match pend with
    | some ws =>
      if c = ')' then rbC :: '\n' :: ')' :: cbpAux none cs
      else if isSpaceC c then cbpAux (some (c :: ws)) cs
      else if c = rbC then (rbC :: ws.reverse) ++ cbpAux (some []) cs
      else (rbC :: ws.reverse) ++ c :: cbpAux none cs
    | none =>
      if c = rbC then cbpAux (some []) cs
      else c :: cbpAux none cs

/-- Model of `reCloseBraceParen.ReplaceAll(in, "\x7d\n)")`. -/
def closeBraceParen (l : List Char) : List Char := cbpAux none l

/-- The part of `Preprocess` before the optional sort transforms: split composite
delimiters (formatter.go lines 60-62). -/
def preSplit (l : List Char) : List Char := closeBraceParen (openParenBrace l)

/-- Emit a run of `n` newlines, collapsed to two if the run has length three
or more (`reCollapseBlank`, pattern: three or more newlines). -/
def emitRun (n : Nat) : List Char :=
  if 3 ≤ n then ['\n', '\n'] else List.replicate n '\n'

/-- Scanner for `reCollapseBlank.ReplaceAll(form, "\n\n")`: `n` counts the
pending run of newlines already read. -/
def collapseAux (n : Nat) : List Char → List Char
  | [] => emitRun n
  | c :: cs =>
    if c = '\n' then collapseAux (n + 1) cs
    else emitRun n ++ c :: collapseAux 0 cs

/-- Model of `reCollapseBlank.ReplaceAll(form, "\n\n")`: every run of three or more
newlines becomes exactly two. -/
def collapseBlank (l : List Char) : List Char := collapseAux 0 l

/-- Model of `rePadSingle.ReplaceAll(form, "\x7d\n\n$1")`: the pattern is a close
brace, a newline, and one non-newline character (captured).  Matches are
found left to right and do not overlap: a match consumes all three
characters, so scanning resumes after the captured character. -/
def padSingle : List Char → List Char
  | c :: y :: d :: rest =>
    if c = rbC ∧ y = '\n' ∧ d ≠ '\n' then
      c :: y :: '\n' :: d :: padSingle rest
    else c :: padSingle (y :: d :: rest)
  | l => l

/-- Does the text start with the keyword `resource` followed by at least one
whitespace character (the `resource\s+` part of `reResourceBlocks`)? -/
def startsWithResourceSpace : List Char → Bool
  | r1 :: r2 :: r3 :: r4 :: r5 :: r6 :: r7 :: r8 :: c :: _ =>
    r1 == 'r' && r2 == 'e' && r3 == 's' && r4 == 'o' && r5 == 'u' && r6 == 'r' &&
      r7 == 'c' && r8 == 'e' && isSpaceC c
  | _ => false

/-- Model of `reResourceBlocks.ReplaceAll(form, "\x7d\n\n$1")`: the pattern is a close
brace, zero to two newlines, then `resource` plus whitespace (captured).
Since neither the keyword nor the whitespace run can contain a close brace,
rescanning character by character after emitting the replacement prefix is
equivalent to Go's non-overlapping continuation after the whole match. -/
def resourcePass : List Char → List Char
  | c :: y :: d :: rest =>
    if c = rbC ∧ startsWithResourceSpace (y :: d :: rest) = true then
      c :: '\n' :: '\n' :: resourcePass (y :: d :: rest)
    else if c = rbC ∧ y = '\n' ∧ startsWithResourceSpace (d :: rest) = true then
      c :: '\n' :: '\n' :: resourcePass (d :: rest)
    else if c = rbC ∧ y = '\n' ∧ d = '\n' ∧ startsWithResourceSpace rest = true then
      c :: '\n' :: '\n' :: resourcePass rest
    else c :: resourcePass (y :: d :: rest)
  | c :: cs => c :: resourcePass cs
  | [] => []

/-- Model of `bytes.TrimRight(form, "\n")`: drop all trailing newlines. -/
def trimNl (l : List Char) : List Char :=
  (l.reverse.dropWhile (fun c => c = '\n')).reverse

/-- Steps 3 and 4 of `Format` (formatter.go lines 44-54): blank-line
normalization, the resource-block pass, then trim trailing newlines and
append exactly two. -/
def postProcess (t : List Char) : List Char :=
  trimNl (resourcePass (padSingle (collapseBlank t))) ++ ['\n', '\n']

/-- Detector for a remaining `rePadSingle` match: a close brace followed by a
newline and a non-newline character anywhere in the text. -/
def hasBareBrace : List Char → Bool
  | c :: y :: d :: rest =>
    if c = rbC ∧ y = '\n' ∧ d ≠ '\n' then true
    else hasBareBrace (y :: d :: rest)
  | _ => false

/-- Detector for chained closing braces: a close brace followed by a newline
and another close brace anywhere in the text (the situation in which
`rePadSingle`'s non-overlapping scan skips a brace). -/
def hasChain : List Char → Bool
  | c :: y :: d :: rest =>
    if c = rbC ∧ y = '\n' ∧ d = rbC then true
    else hasChain (y :: d :: rest)
  | _ => false

/-! ### HCL body model (hclwrite boundary used by formatter.go lines 79-171)

A parsed file body is an ordered list of items: attributes (`name = expr`,
the item owns its whole line including the trailing newline, so the `expr`
field is the raw value-expression token list returned by
`Expr().BuildTokens(nil)`), nested blocks, and bare newline tokens (what
`Body.AppendNewline` appends).  `Body.Attributes()` yields the attribute
items (names are unique whenever the text parsed), `RemoveAttribute` deletes
an attribute item, `SetAttributeRaw` on an absent name appends a new
attribute item at the end of the body, `RemoveBlock` deletes a block item and
`AppendBlock` appends one at the end. -/

inductive BodyItem where
  | attr (name : List Char) (expr : List Char) : BodyItem
  | block (btype : List Char) (labels : List (List Char)) (body : List BodyItem) : BodyItem
  | newline : BodyItem

/-- Is the item an attribute? -/
def isAttrItem : BodyItem → Bool
  | .attr _ _ => true
  | _ => false

/-- The `(name, raw value-expression tokens)` pairs of a body's direct
attributes, in body order (`Body.Attributes()` plus `Expr().BuildTokens`). -/
def bodyAttrs : List BodyItem → List (List Char × List Char)
  | [] => []
  | .attr n e :: rest => (n, e) :: bodyAttrs rest
  | _ :: rest => bodyAttrs rest

/-- Association-list lookup of an attribute's raw expression by name
(the `attrMap[name]` access in `sortResourceInputs`). -/
def lookupA (n : List Char) : List (List Char × List Char) → Option (List Char)
  | [] => none
  | (m, e) :: rest => if n = m then some e else lookupA n rest

/-- The keyword `resource`. -/
def resourceChars : List Char := ['r', 'e', 's', 'o', 'u', 'r', 'c', 'e']

/-- The keyword `variable`. -/
def variableChars : List Char := ['v', 'a', 'r', 'i', 'a', 'b', 'l', 'e']

/-- The body rewrite `sortResourceInputs` performs on one resource block
(formatter.go lines 90-118): when the body has at least one attribute,
collect the attribute names, sort them with `sort.Strings`, remove every
attribute from the body, then `SetAttributeRaw` each name back in sorted
order with its original expression tokens — appending each at the end of the
remaining body. -/
def sortResourceBody (items : List BodyItem) : List BodyItem :=
  let attrs := bodyAttrs items
  if 0 < attrs.length then
    let names := sortB strLt (attrs.map Prod.fst)
    items.filter (fun i => !(isAttrItem i)) ++
      names.map (fun n => BodyItem.attr n ((lookupA n attrs).getD []))
  else items

/-- The loop of `sortResourceInputs` over the top-level blocks (formatter.go lines
87-120): every block whose type is `resource` has its body rewritten; all
other top-level items are untouched. -/
def sortResourceTop (items : List BodyItem) : List BodyItem :=
  items.map fun i =>
    match i with
    | .block t ls body =>
      if t = resourceChars then .block t ls (sortResourceBody body) else i
    | _ => i

/-- Is the item a top-level `variable` block? -/
def isVarBlock : BodyItem → Bool
  | .block t _ _ => t = variableChars
  | _ => false

/-- The `sort.Slice` comparator of `sortVariableBlocks` (formatter.go lines
150-155): blocks compare by their first label; a block with no labels is
never less than anything. -/
def varLess : BodyItem → BodyItem → Bool
  | .block _ (l1 :: _) _, .block _ (l2 :: _) _ => strLt l1 l2
  | _, _ => false

/-- The `AppendBlock`/`AppendNewline` loop of `sortVariableBlocks`
(formatter.go lines 158-166): append the sorted blocks with a newline
between consecutive blocks but none after the last. -/
def appendWithNl : List BodyItem → List BodyItem
  | [] => []
  | [b] => [b]
  | b :: rest => b :: .newline :: appendWithNl rest

/-- The top-level rewrite of `sortVariableBlocks` (formatter.go lines 136-168):
collect every top-level `variable` block; when there are more than one,
remove them all from the body, sort them with the `varLess` comparator, and
append them back at the end, newline-separated. -/
def sortVariableTop (items : List BodyItem) : List BodyItem :=
  let varBlocks := items.filter isVarBlock
  if 1 < varBlocks.length then
    items.filter (fun i => !(isVarBlock i)) ++ appendWithNl (sortB varLess varBlocks)
  else items

/-- Model of `sortResourceInputs` at the byte level (formatter.go lines 79-124):
parse; on failure return the input unchanged; otherwise rewrite the tree and
serialize it.  `parse` and `ser` are the `hclwrite.ParseConfig` /
`File.Bytes` boundary, which is external to this repository. -/
def sortResourceInputs (parse : List Char → Option (List BodyItem))
    (ser : List BodyItem → List Char) (inp : List Char) : List Char :=
  match parse inp with
  | none => inp
  | some body => ser (sortResourceTop body)

/-- Model of `sortVariableBlocks` at the byte level (formatter.go lines 127-171). -/
def sortVariableBlocks (parse : List Char → Option (List BodyItem))
    (ser : List BodyItem → List Char) (inp : List Char) : List Char :=
  match parse inp with
  | none => inp
  | some body => ser (sortVariableTop body)

/-! ### The pipeline (formatter.go lines 24-77, 174-177) -/

/-- The configuration fields of `config.Config` that the formatter reads. -/
structure Config where
  sortInputs : Bool
  sortVars : Bool
deriving DecidableEq

/-- Model of `Formatter.Preprocess` (formatter.go lines 59-77): split composite
delimiters, then apply the enabled sort transforms in order. -/
def Preprocess (cfg : Config) (parse : List Char → Option (List BodyItem))
    (ser : List BodyItem → List Char) (inp : List Char) : List Char :=
  let out := preSplit inp
  let out := if cfg.sortInputs then sortResourceInputs parse ser out else out
  let out := if cfg.sortVars then sortVariableBlocks parse ser out else out
  out

/-- Model of `Formatter.Format` (formatter.go lines 37-56): preprocess, render through
`hclwrite.Format` (the external canonical renderer, passed as `render`), then
collapse blank runs, pad after closing braces, normalize space before
`resource` blocks, and end with exactly two trailing newlines. -/
def Format (cfg : Config) (render : List Char → List Char)
    (parse : List Char → Option (List BodyItem))
    (ser : List BodyItem → List Char) (content : List Char) : List Char :=
  postProcess (render (Preprocess cfg parse ser content))

/-- Model of `Formatter.FormatFile` (formatter.go lines 174-177): format and report
whether the bytes changed (`!bytes.Equal(content, formatted)`). -/
def FormatFile (cfg : Config) (render : List Char → List Char)
    (parse : List Char → Option (List BodyItem))
    (ser : List BodyItem → List Char) (content : List Char) : List Char × Bool :=
  let formatted := Format cfg render parse ser content
  (formatted, !(content == formatted))

/-! ### CLI exit codes (cmd/tffmt/main.go: Main, walkDir, processFile,
handleResult) -/

/-- What processing one `.tf` file can yield: a change flag, or an I/O
error from reading/writing it. -/
inductive FOutcome where
  | ok (changed : Bool) : FOutcome
  | ioError : FOutcome
deriving DecidableEq

/-- A command-line path argument as `Main` sees it: `os.Stat` failure, a
`.tf` file (processed via `processFile` + `handleResult`), any other file
(silently skipped), or a directory (processed via `walkDir`). -/
inductive PathSpec where
  | statError : PathSpec
  | tfFile (o : FOutcome) : PathSpec
  | otherFile : PathSpec
  | dir (entries : List FOutcome) : PathSpec
deriving DecidableEq

/-- Model of `handleResult` (cmd/tffmt/main.go): an error forces exit code 1; a
changed file under `--check` sets 3 only while the exit code is still 0. -/
def handleResult (check changed err : Bool) (exit : Nat) : Nat :=
  if err then 1
  else if changed && check && decide (exit = 0) then 3
  else exit

/-- Model of `walkDir`: the walk aborts at the first file whose processing returns an error and
reports that error to `Main`; for changed files it calls `handleResult` with
a freshly allocated exit variable (`new(int)`), so a change inside a
directory never reaches `Main`'s exit code.  The walk's only observable
effect on the exit code is therefore whether it returned an error. -/
def walkDirErr : List FOutcome → Bool
  | [] => false
  | .ioError :: _ => true
  | .ok _ :: rest => walkDirErr rest

/-- One iteration of `Main`'s loop over path arguments. -/
def pathStep (check : Bool) (exit : Nat) : PathSpec → Nat
  | .statError => 1
  | .dir es => if walkDirErr es then 1 else exit
  | .tfFile .ioError => handleResult check false true exit
  | .tfFile (.ok ch) => handleResult check ch false exit
  | .otherFile => exit

/-- The exit code `Main` passes to `os.Exit` after looping over all path
arguments. -/
def mainExit (check : Bool) (paths : List PathSpec) : Nat :=
  paths.foldl (pathStep check) 0

/-! ### Helper lemmas about the text passes -/

theorem dropWhile_idem (p : Char → Bool) :
    ∀ l : List Char, List.dropWhile p (List.dropWhile p l) = List.dropWhile p l
  | [] => rfl
  | c :: cs => by
    by_cases h : p c
    · simp [List.dropWhile_cons, h, dropWhile_idem p cs]
    · simp [List.dropWhile_cons, h]

theorem trimNl_append_nl2 (l : List Char) : trimNl (l ++ ['\n', '\n']) = trimNl l := by
  simp [trimNl, List.dropWhile_cons]

theorem trimNl_idem (l : List Char) : trimNl (trimNl l) = trimNl l := by
  simp [trimNl, dropWhile_idem]

/-- Scanning past a character that is not a closing brace copies it. -/
theorem padSingle_cons_nonbrace {c : Char} (h : c ≠ rbC) (u : List Char) :
    padSingle (c :: u) = c :: padSingle u := by
  rcases u with _ | ⟨y, _ | ⟨d, rest⟩⟩
  · rfl
  · rfl
  · simp [padSingle, h]

/-- The pass `padSingle` never changes the first character. -/
theorem padSingle_head (x : Char) (xs : List Char) :
    ∃ w, padSingle (x :: xs) = x :: w := by
  rcases xs with _ | ⟨y, _ | ⟨d, rest⟩⟩
  · exact ⟨[], rfl⟩
  · exact ⟨[y], rfl⟩
  · by_cases hm : x = rbC ∧ y = '\n' ∧ d ≠ '\n'
    · exact ⟨y :: '\n' :: d :: padSingle rest, by simp [padSingle, hm]⟩
    · exact ⟨padSingle (y :: d :: rest), by simp [padSingle, hm]⟩

/-- A leading non-brace character does not affect bare-brace detection. -/
theorem hasBareBrace_cons_nonbrace {c : Char} (h : c ≠ rbC) (u : List Char) :
    hasBareBrace (c :: u) = hasBareBrace u := by
  rcases u with _ | ⟨y, _ | ⟨d, rest⟩⟩
  · rfl
  · rfl
  · simp [hasBareBrace, h]

/-- A chain anywhere in the tail is a chain in the whole text. -/
theorem hasChain_tail_false {x : Char} {u : List Char}
    (h : hasChain (x :: u) = false) : hasChain u = false := by
  rcases u with _ | ⟨y, _ | ⟨d, rest⟩⟩
  · rfl
  · rfl
  · rw [show hasChain (x :: y :: d :: rest) =
        (if x = rbC ∧ y = '\n' ∧ d = rbC then true else hasChain (y :: d :: rest))
        from rfl] at h
    split_ifs at h
    exact h

/-- Scanning past a character that is not a closing brace copies it. -/
theorem resourcePass_cons_nonbrace {c : Char} (h : c ≠ rbC) (u : List Char) :
    resourcePass (c :: u) = c :: resourcePass u := by
  rcases u with _ | ⟨y, _ | ⟨d, rest⟩⟩ <;>
    simp [resourcePass, h]

/-- A text starting with a newline never starts with the keyword. -/
theorem sWRS_newline (u : List Char) :
    startsWithResourceSpace ('\n' :: u) = false := by
  rcases u with _ | ⟨a1, _ | ⟨a2, _ | ⟨a3, _ | ⟨a4, _ | ⟨a5, _ | ⟨a6, _ | ⟨a7, _ | ⟨a8, tail⟩⟩⟩⟩⟩⟩⟩⟩ <;> rfl

/-- With three or more newlines after the closing brace, no branch of the
resource pass matches and the scan advances one character. -/
theorem resourcePass_chain3 (T : List Char) :
    resourcePass (rbC :: '\n' :: '\n' :: '\n' :: T) =
      rbC :: resourcePass ('\n' :: '\n' :: '\n' :: T) := by
  conv_lhs =>
    rw [show resourcePass (rbC :: '\n' :: '\n' :: '\n' :: T) =
      (if rbC = rbC ∧ startsWithResourceSpace ('\n' :: '\n' :: '\n' :: T) = true then
        rbC :: '\n' :: '\n' :: resourcePass ('\n' :: '\n' :: '\n' :: T)
       else if rbC = rbC ∧ ('\n' : Char) = '\n' ∧
          startsWithResourceSpace ('\n' :: '\n' :: T) = true then
        rbC :: '\n' :: '\n' :: resourcePass ('\n' :: '\n' :: T)
       else if rbC = rbC ∧ ('\n' : Char) = '\n' ∧ ('\n' : Char) = '\n' ∧
          startsWithResourceSpace ('\n' :: T) = true then
        rbC :: '\n' :: '\n' :: resourcePass ('\n' :: T)
       else rbC :: resourcePass ('\n' :: '\n' :: '\n' :: T)) from rfl]
  simp only [sWRS_newline]
  simp

/-- A prefix containing no closing brace is copied verbatim. -/
theorem resourcePass_nomatch_copy :
    ∀ l u : List Char, (∀ c ∈ l, c ≠ rbC) →
      resourcePass (l ++ u) = l ++ resourcePass u
  | [], _, _ => by simp
  | c :: l, u, h => by
    have hc : c ≠ rbC := h c (by simp)
    rw [List.cons_append, resourcePass_cons_nonbrace hc,
      resourcePass_nomatch_copy l u (fun x hx => h x (by simp [hx])),
      List.cons_append]

/-- Does the item have at least one label (i.e., is it a labelled block)? -/
def hasLabelB : BodyItem → Bool
  | .block _ (_ :: _) _ => true
  | _ => false

/-- The first label of a labelled block (`Labels()[0]`); `[]` otherwise. -/
def firstLabel : BodyItem → List Char
  | .block _ (l :: _) _ => l
  | _ => []

/-- Decidable statement that each top-level block's direct attribute names
are distinct — guaranteed by the HCL parser, which rejects duplicate
attribute definitions within one body. -/
def topAttrNamesNodup (items : List BodyItem) : Bool :=
  items.all fun i =>
    match i with
    | .block _ _ b => decide (((bodyAttrs b).map Prod.fst).Nodup)
    | _ => true

/-- The multiset of `(attribute name, raw value tokens)` pairs directly
inside a top-level item. -/
def itemAttrPairs : BodyItem → Multiset (List Char × List Char)
  | .block _ _ body => (bodyAttrs body : Multiset (List Char × List Char))
  | .attr n e => {(n, e)}
  | .newline => 0

/-- The non-attribute items (nested blocks and newlines) directly inside a
top-level item, in order — including their entire nested contents. -/
def itemNonAttr : BodyItem → List BodyItem
  | .block _ _ body => body.filter (fun i => !(isAttrItem i))
  | _ => []

/-! ### Helper lemmas about the tree transforms -/

theorem bodyAttrs_append :
    ∀ l1 l2 : List BodyItem, bodyAttrs (l1 ++ l2) = bodyAttrs l1 ++ bodyAttrs l2
  | [], _ => rfl
  | i :: l1, l2 => by
    cases i <;> simp [bodyAttrs, bodyAttrs_append l1 l2]

theorem bodyAttrs_filter_nonattr :
    ∀ l : List BodyItem, bodyAttrs (l.filter (fun i => !(isAttrItem i))) = []
  | [] => rfl
  | .attr _ _ :: l => bodyAttrs_filter_nonattr l
  | .block _ _ _ :: l => bodyAttrs_filter_nonattr l
  | .newline :: l => bodyAttrs_filter_nonattr l

theorem bodyAttrs_map_attr (g : List Char → List Char) :
    ∀ names : List (List Char),
      bodyAttrs (names.map (fun n => BodyItem.attr n (g n))) =
        names.map (fun n => (n, g n))
  | [] => rfl
  | n :: names => by
    simp [bodyAttrs, bodyAttrs_map_attr g names]

theorem filter_nonattr_map_attr (g : List Char → List Char) :
    ∀ names : List (List Char),
      (names.map (fun n => BodyItem.attr n (g n))).filter (fun i => !(isAttrItem i)) = []
  | [] => rfl
  | _ :: names => filter_nonattr_map_attr g names

theorem lookupA_eq_of_nodup :
    ∀ l : List (List Char × List Char), (l.map Prod.fst).Nodup →
      ∀ p ∈ l, lookupA p.1 l = some p.2
  | [], _, _, hp => absurd hp (List.not_mem_nil _)
  | (m, e) :: l, hnd, p, hp => by
    rw [List.map_cons, List.nodup_cons] at hnd
    rcases List.mem_cons.mp hp with rfl | hp
    · simp [lookupA]
    · have hne : p.1 ≠ m := by
        intro hEq
        have hmem : p.1 ∈ l.map Prod.fst := List.mem_map_of_mem Prod.fst hp
        rw [hEq] at hmem
        exact hnd.1 hmem
      simp only [lookupA, if_neg hne]
      exact lookupA_eq_of_nodup l hnd.2 p hp

/-- Feeding the sorted attribute names back through the attribute map yields
a permutation of the original attribute pairs. -/
theorem sorted_lookup_perm (attrs : List (List Char × List Char))
    (h : (attrs.map Prod.fst).Nodup) :
    List.Perm
      ((sortB strLt (attrs.map Prod.fst)).map
        (fun n => (n, (lookupA n attrs).getD [])))
      attrs := by
  have hperm := (sortB_perm strLt (attrs.map Prod.fst)).map
    (fun n => (n, (lookupA n attrs).getD []))
  refine hperm.trans ?_
  rw [List.map_map]
  have : attrs.map ((fun n => (n, (lookupA n attrs).getD [])) ∘ Prod.fst) = attrs := by
    refine List.map_congr_left ?_ |>.trans (List.map_id attrs)
    intro p hp
    simp [Function.comp, lookupA_eq_of_nodup attrs h p hp]
  rw [this]

/-- The attribute pairs of the rewritten body are a permutation of the
original ones whenever the attribute names are distinct. -/
theorem sortResourceBody_attrs_perm (b : List BodyItem)
    (h : ((bodyAttrs b).map Prod.fst).Nodup) :
    List.Perm (bodyAttrs (sortResourceBody b)) (bodyAttrs b) := by
  rw [sortResourceBody]
  split_ifs with hlen
  · rw [bodyAttrs_append, bodyAttrs_filter_nonattr, List.nil_append,
      bodyAttrs_map_attr]
    exact sorted_lookup_perm (bodyAttrs b) h
  · exact List.Perm.refl _

/-- The rewritten body keeps exactly the original non-attribute items, in
order. -/
theorem sortResourceBody_nonattr (b : List BodyItem) :
    (sortResourceBody b).filter (fun i => !(isAttrItem i)) =
      b.filter (fun i => !(isAttrItem i)) := by
  rw [sortResourceBody]
  split_ifs with hlen
  · rw [List.filter_append, filter_nonattr_map_attr, List.append_nil,
      List.filter_filter]
    simp
  · rfl

/-- The attribute names of the rewritten body are the insertion sort of the
original names (when there is at least one attribute). -/
theorem sortResourceBody_names (b : List BodyItem)
    (hne : 0 < (bodyAttrs b).length) :
    (bodyAttrs (sortResourceBody b)).map Prod.fst =
      sortB strLt ((bodyAttrs b).map Prod.fst) := by
  rw [sortResourceBody, if_pos hne, bodyAttrs_append, bodyAttrs_filter_nonattr,
    List.nil_append, bodyAttrs_map_attr, List.map_map]
  have hfst : ∀ n ∈ sortB strLt ((bodyAttrs b).map Prod.fst),
      (Prod.fst ∘ fun n => (n, (lookupA n (bodyAttrs b)).getD [])) n = n :=
    fun _ _ => rfl
  rw [List.map_congr_left hfst]
  simp

/-- The comparator `varLess` is asymmetric (no hypotheses needed: it returns `true` only on
two labelled blocks). -/
theorem varLess_asymm (a b : BodyItem) (h : varLess a b = true) :
    varLess b a = false := by
  cases a with
  | attr _ _ => simp [varLess] at h
  | newline => simp [varLess] at h
  | block t1 ls1 b1 =>
    cases b with
    | attr _ _ => cases ls1 <;> simp [varLess] at h
    | newline => cases ls1 <;> simp [varLess] at h
    | block t2 ls2 b2 =>
      cases ls1 with
      | nil => simp [varLess] at h
      | cons l1 ls1 =>
        cases ls2 with
        | nil => simp [varLess] at h
        | cons l2 ls2 =>
          simp only [varLess] at h ⊢
          exact strLt_asymm l1 l2 h

/-- Negative transitivity of `varLess` over labelled blocks. -/
theorem varLess_total2 {a b c : BodyItem} (hb : hasLabelB b = true)
    (h : varLess a c = true) : varLess a b = true ∨ varLess b c = true := by
  cases a with
  | attr _ _ => simp [varLess] at h
  | newline => simp [varLess] at h
  | block t1 ls1 b1 =>
    cases c with
    | attr _ _ => cases ls1 <;> simp [varLess] at h
    | newline => cases ls1 <;> simp [varLess] at h
    | block t3 ls3 b3 =>
      cases ls1 with
      | nil => simp [varLess] at h
      | cons l1 ls1 =>
        cases ls3 with
        | nil => simp [varLess] at h
        | cons l3 ls3 =>
          simp only [varLess] at h
          cases b with
          | attr _ _ => simp [hasLabelB] at hb
          | newline => simp [hasLabelB] at hb
          | block t2 ls2 b2 =>
            cases ls2 with
            | nil => simp [hasLabelB] at hb
            | cons l2 ls2 =>
              simp only [varLess]
              exact strLt_total2 l1 l2 l3 h

/-- Insertion sort by `strLt` of distinct names is strictly ascending. -/
theorem sortB_strLt_strict (names : List (List Char)) (hnd : names.Nodup) :
    (sortB strLt names).Pairwise (fun a b => strLt a b = true) := by
  have hle := sortB_pairwise names (fun a _ b _ => strLt_asymm a b)
    (fun a _ b _ c _ => strLt_total2 a b c)
  have hnd2 : (sortB strLt names).Nodup := ((sortB_perm strLt names).nodup_iff).mpr hnd
  have hnd3 : (sortB strLt names).Pairwise (fun a b => a ≠ b) := hnd2
  refine List.Pairwise.imp ?_ (hle.and hnd3)
  intro a b h
  cases hab : strLt a b
  · exact absurd (strLt_conn a b hab h.1) h.2
  · rfl

/-- On two labelled blocks, `varLess` is comparison of the first labels. -/
theorem varLess_labeled {a b : BodyItem} (ha : hasLabelB a = true)
    (hb : hasLabelB b = true) :
    varLess a b = strLt (firstLabel a) (firstLabel b) := by
  cases a with
  | attr _ _ => simp [hasLabelB] at ha
  | newline => simp [hasLabelB] at ha
  | block t1 ls1 b1 =>
    cases ls1 with
    | nil => simp [hasLabelB] at ha
    | cons l1 ls1 =>
      cases b with
      | attr _ _ => simp [hasLabelB] at hb
      | newline => simp [hasLabelB] at hb
      | block t2 ls2 b2 =>
        cases ls2 with
        | nil => simp [hasLabelB] at hb
        | cons l2 ls2 => rfl

/-- A body with no attributes is untouched by filtering the attributes out. -/
theorem filter_nonattr_of_no_attrs :
    ∀ b : List BodyItem, bodyAttrs b = [] →
      b.filter (fun i => !(isAttrItem i)) = b
  | [], _ => rfl
  | .attr n e :: b, h => by simp [bodyAttrs] at h
  | .block t ls bd :: b, h => by
    rw [show bodyAttrs (BodyItem.block t ls bd :: b) = bodyAttrs b from rfl] at h
    rw [show (BodyItem.block t ls bd :: b).filter (fun i => !(isAttrItem i)) =
      BodyItem.block t ls bd :: b.filter (fun i => !(isAttrItem i)) from rfl,
      filter_nonattr_of_no_attrs b h]
  | .newline :: b, h => by
    rw [show bodyAttrs (BodyItem.newline :: b) = bodyAttrs b from rfl] at h
    rw [show (BodyItem.newline :: b).filter (fun i => !(isAttrItem i)) =
      BodyItem.newline :: b.filter (fun i => !(isAttrItem i)) from rfl,
      filter_nonattr_of_no_attrs b h]

/-- Whitespace characters are not the closing brace. -/
theorem ne_rbC_of_isSpaceC {c : Char} (h : isSpaceC c = true) : c ≠ rbC := by
  intro hEq
  rw [hEq] at h
  exact absurd h (by decide)

/-- A text containing no closing brace is left unchanged by the resource
pass. -/
theorem resourcePass_id_of_no_brace (t : List Char) (h : rbC ∉ t) :
    resourcePass t = t := by
  have h2 := resourcePass_nomatch_copy t [] (fun c hc hEq => h (hEq ▸ hc))
  simpa [show resourcePass ([] : List Char) = [] from rfl] using h2

/-- When the text contains no match of the padding pattern, the padding pass
is the identity. -/
theorem padSingle_id_of_no_match :
    ∀ t : List Char, hasBareBrace t = false → padSingle t = t := by
  intro t
  induction t using padSingle.induct with
  | case1 c y d rest hcond ih =>
    intro h
    rw [show hasBareBrace (c :: y :: d :: rest) =
      (if c = rbC ∧ y = '\n' ∧ d ≠ '\n' then true else hasBareBrace (y :: d :: rest))
      from rfl, if_pos hcond] at h
    exact Bool.noConfusion h
  | case2 c y d rest hcond ih =>
    intro h
    rw [show hasBareBrace (c :: y :: d :: rest) =
      (if c = rbC ∧ y = '\n' ∧ d ≠ '\n' then true else hasBareBrace (y :: d :: rest))
      from rfl, if_neg hcond] at h
    rw [show padSingle (c :: y :: d :: rest) =
      (if c = rbC ∧ y = '\n' ∧ d ≠ '\n' then c :: y :: '\n' :: d :: padSingle rest
       else c :: padSingle (y :: d :: rest)) from rfl, if_neg hcond, ih h]
  | case3 l hshape =>
    intro _
    rcases l with _ | ⟨a, _ | ⟨b, _ | ⟨e, rest⟩⟩⟩
    · rfl
    · rfl
    · rfl
    · exact absurd rfl (hshape a b e rest)

/-- When no closing-brace line is chained directly onto another closing
brace, the padding pass leaves no unpadded line-final closing brace followed
by content. -/
theorem padSingle_no_bare_of_no_chain :
    ∀ t : List Char, hasChain t = false → hasBareBrace (padSingle t) = false := by
  intro t
  induction t using padSingle.induct with
  | case1 c y d rest hcond ih =>
    intro h
    obtain ⟨hc, hy, hd⟩ := hcond
    subst hc; subst hy
    have hdnb : d ≠ rbC := by
      intro hEq
      rw [show hasChain (rbC :: '\n' :: d :: rest) =
        (if rbC = rbC ∧ ('\n' : Char) = '\n' ∧ d = rbC then true
         else hasChain ('\n' :: d :: rest)) from rfl,
        if_pos ⟨rfl, rfl, hEq⟩] at h
      exact Bool.noConfusion h
    have hch2 : hasChain ('\n' :: d :: rest) = false := by
      rw [show hasChain (rbC :: '\n' :: d :: rest) =
        (if rbC = rbC ∧ ('\n' : Char) = '\n' ∧ d = rbC then true
         else hasChain ('\n' :: d :: rest)) from rfl,
        if_neg (fun hx => hdnb hx.2.2)] at h
      exact h
    have hch3 : hasChain rest = false :=
      hasChain_tail_false (hasChain_tail_false hch2)
    rw [show padSingle (rbC :: '\n' :: d :: rest) =
      (if rbC = rbC ∧ ('\n' : Char) = '\n' ∧ d ≠ '\n' then
        rbC :: '\n' :: '\n' :: d :: padSingle rest
       else rbC :: padSingle ('\n' :: d :: rest)) from rfl,
      if_pos ⟨rfl, rfl, hd⟩]
    rw [show hasBareBrace (rbC :: '\n' :: '\n' :: d :: padSingle rest) =
      (if rbC = rbC ∧ ('\n' : Char) = '\n' ∧ ('\n' : Char) ≠ '\n' then true
       else hasBareBrace ('\n' :: '\n' :: d :: padSingle rest)) from rfl,
      if_neg (fun hx => hx.2.2 rfl),
      hasBareBrace_cons_nonbrace (by decide) ('\n' :: d :: padSingle rest),
      hasBareBrace_cons_nonbrace (by decide) (d :: padSingle rest),
      hasBareBrace_cons_nonbrace hdnb (padSingle rest)]
    exact ih hch3
  | case2 c y d rest hcond ih =>
    intro h
    have hch2 : hasChain (y :: d :: rest) = false := hasChain_tail_false h
    rw [show padSingle (c :: y :: d :: rest) =
      (if c = rbC ∧ y = '\n' ∧ d ≠ '\n' then c :: y :: '\n' :: d :: padSingle rest
       else c :: padSingle (y :: d :: rest)) from rfl, if_neg hcond]
    by_cases hc : c = rbC
    · subst hc
      by_cases hy : y = '\n'
      · subst hy
        have hd : d = '\n' := by
          by_contra hd
          exact hcond ⟨rfl, rfl, hd⟩
        subst hd
        rw [padSingle_cons_nonbrace (by decide) ('\n' :: rest)]
        obtain ⟨w2, hw2⟩ := padSingle_head '\n' rest
        rw [hw2]
        rw [show hasBareBrace (rbC :: '\n' :: '\n' :: w2) =
          (if rbC = rbC ∧ ('\n' : Char) = '\n' ∧ ('\n' : Char) ≠ '\n' then true
           else hasBareBrace ('\n' :: '\n' :: w2)) from rfl,
          if_neg (fun hx => hx.2.2 rfl),
          hasBareBrace_cons_nonbrace (by decide) ('\n' :: w2),
          hasBareBrace_cons_nonbrace (by decide) w2]
        have hres := ih hch2
        rwa [padSingle_cons_nonbrace (by decide) ('\n' :: rest), hw2,
          hasBareBrace_cons_nonbrace (by decide) ('\n' :: w2),
          hasBareBrace_cons_nonbrace (by decide) w2] at hres
      · obtain ⟨w, hw⟩ := padSingle_head y (d :: rest)
        rw [hw]
        cases w with
        | nil => rfl
        | cons d1 rest1 =>
          rw [show hasBareBrace (rbC :: y :: d1 :: rest1) =
            (if rbC = rbC ∧ y = '\n' ∧ d1 ≠ '\n' then true
             else hasBareBrace (y :: d1 :: rest1)) from rfl,
            if_neg (fun hx => hy hx.2.1)]
          have hres := ih hch2
          rwa [hw] at hres
    · rw [hasBareBrace_cons_nonbrace hc]
      exact ih hch2
  | case3 l hshape =>
    intro _
    rcases l with _ | ⟨a, _ | ⟨b, _ | ⟨e, rest⟩⟩⟩
    · rfl
    · rfl
    · rfl
    · exact absurd rfl (hshape a b e rest)

/-! ### Claim theorems -/

/-- Input for the C1 counterexample: the text
`a \x7b`, newline, `  b \x7b`, newline, `  \x7d`, newline, `\x7d`, newline,
`c \x7b`, newline, `\x7d` — a top-level block containing a nested block,
followed by another top-level block. -/
def c1Input : List Char :=
  ['a', ' ', lbC, '\n', ' ', ' ', 'b', ' ', lbC, '\n', ' ', ' ', rbC, '\n', rbC,
   '\n', 'c', ' ', lbC, '\n', rbC]

/-- A configuration with both sort transforms disabled. -/
def noSortCfg : Config := ⟨false, false⟩

/-- A parse function that always fails (never consulted while both sort
transforms are disabled). -/
def parseNone : List Char → Option (List BodyItem) := fun _ => none

/-- A trivial serializer (never consulted while both sort transforms are
disabled). -/
def serNil : List BodyItem → List Char := fun _ => []

/-- C1, counterexample: with the identity renderer — which is idempotent, as
section 4.2 of the specification requires of the canonical renderer, and
which agrees with `hclwrite.Format` on this already-canonical text — applying
`Format` to its own output yields different bytes.  On `c1Input` the first
run pads only after the inner closing brace: the `rePadSingle` match consumes
the outer closing brace as its captured character, so the non-overlapping
scan skips it; the second run then pads after the outer closing brace,
changing the output.  Hence `Format (Format S) ≠ Format S`. -/
theorem c1_counterexample :
    Format noSortCfg id parseNone serNil
        (Format noSortCfg id parseNone serNil c1Input) ≠
      Format noSortCfg id parseNone serNil c1Input := by decide

/-- C1, amended: the pipeline is idempotent at exactly those inputs whose
formatted output is left unchanged by each rewriting stage — preprocessing,
the renderer, blank-run collapsing, closing-brace padding, and the
resource-block pass; the final trim-and-append-two-newlines stage is
unconditionally idempotent.  (The counterexample shows the brace-padding
stage does not always fix `Format`'s own output, which is the only reason the
unconditional claim fails.) -/
theorem c1_amended (cfg : Config) (render : List Char → List Char)
    (parse : List Char → Option (List BodyItem)) (ser : List BodyItem → List Char)
    (S : List Char)
    (h1 : Preprocess cfg parse ser (Format cfg render parse ser S) =
      Format cfg render parse ser S)
    (h2 : render (Format cfg render parse ser S) = Format cfg render parse ser S)
    (h3 : collapseBlank (Format cfg render parse ser S) =
      Format cfg render parse ser S)
    (h4 : padSingle (Format cfg render parse ser S) = Format cfg render parse ser S)
    (h5 : resourcePass (Format cfg render parse ser S) =
      Format cfg render parse ser S) :
    Format cfg render parse ser (Format cfg render parse ser S) =
      Format cfg render parse ser S := by
  conv_lhs =>
    rw [show Format cfg render parse ser (Format cfg render parse ser S) =
      postProcess (render (Preprocess cfg parse ser (Format cfg render parse ser S)))
      from rfl, h1, h2]
  rw [postProcess, h3, h4, h5]
  rw [show Format cfg render parse ser S =
    trimNl (resourcePass (padSingle (collapseBlank
      (render (Preprocess cfg parse ser S))))) ++ ['\n', '\n'] from rfl,
    trimNl_append_nl2, trimNl_idem]

/-- C1, witness for the amended theorem: on the one-character input `a` with
the identity renderer every stage fixes the output and the pipeline is
idempotent. -/
theorem c1_amended_witness :
    Preprocess noSortCfg parseNone serNil
        (Format noSortCfg id parseNone serNil ['a']) =
      Format noSortCfg id parseNone serNil ['a'] ∧
    Format noSortCfg id parseNone serNil
        (Format noSortCfg id parseNone serNil ['a']) =
      Format noSortCfg id parseNone serNil ['a'] :=
  ⟨by decide,
   c1_amended noSortCfg id parseNone serNil ['a']
     (by decide) rfl (by decide) (by decide) (by decide)⟩

/-- C2: value preservation under sorting.  For every parsed top-level body
whose blocks have distinct direct attribute names (guaranteed by the HCL
parser, which rejects duplicate attribute definitions), the attribute sorter
preserves, for each top-level item, both the multiset of (attribute name,
raw value-expression tokens) pairs and — verbatim and in order — the
non-attribute items, i.e. the nested blocks with all their contents.  No
attribute is dropped, duplicated, or has its value expression altered; only
the order changes. -/
theorem c2_value_preservation (items : List BodyItem)
    (h : topAttrNamesNodup items = true) :
    (sortResourceTop items).map itemAttrPairs = items.map itemAttrPairs ∧
    (sortResourceTop items).map itemNonAttr = items.map itemNonAttr := by
  have hnd : ∀ t ls b, BodyItem.block t ls b ∈ items →
      ((bodyAttrs b).map Prod.fst).Nodup := by
    intro t ls b hib
    exact of_decide_eq_true (List.all_eq_true.mp h _ hib)
  constructor
  · rw [sortResourceTop, List.map_map]
    refine List.map_congr_left ?_
    intro i hi
    cases i with
    | attr n e => rfl
    | newline => rfl
    | block t ls b =>
      show itemAttrPairs
        (if t = resourceChars then BodyItem.block t ls (sortResourceBody b)
         else BodyItem.block t ls b) = itemAttrPairs (BodyItem.block t ls b)
      split_ifs with ht
      · show (bodyAttrs (sortResourceBody b) : Multiset (List Char × List Char)) =
          (bodyAttrs b : Multiset (List Char × List Char))
        exact Multiset.coe_eq_coe.mpr (sortResourceBody_attrs_perm b (hnd t ls b hi))
      · rfl
  · rw [sortResourceTop, List.map_map]
    refine List.map_congr_left ?_
    intro i _
    cases i with
    | attr n e => rfl
    | newline => rfl
    | block t ls b =>
      show itemNonAttr
        (if t = resourceChars then BodyItem.block t ls (sortResourceBody b)
         else BodyItem.block t ls b) = itemNonAttr (BodyItem.block t ls b)
      split_ifs with ht
      · show (sortResourceBody b).filter (fun i => !(isAttrItem i)) =
          b.filter (fun i => !(isAttrItem i))
        exact sortResourceBody_nonattr b
      · rfl

/-- Concrete top-level body used by the C2 and C3 witnesses: one resource
block with two attributes in descending name order. -/
def resItems : List BodyItem :=
  [BodyItem.block resourceChars []
    [BodyItem.attr ['b'] ['1'], BodyItem.attr ['a'] ['2']]]

/-- C2, witness: on a concrete resource block the attribute-pair multisets
are preserved. -/
theorem c2_witness :
    topAttrNamesNodup resItems = true ∧
    (sortResourceTop resItems).map itemAttrPairs = resItems.map itemAttrPairs :=
  ⟨by decide, (c2_value_preservation resItems (by decide)).1⟩

/-- C3: attribute-sort correctness.  In the attribute sorter's output, every
top-level block of type `resource` has its attribute names in strictly
ascending ordinal order (given the parser-guaranteed distinctness of the
names). -/
theorem c3_sort_correctness (items : List BodyItem)
    (h : topAttrNamesNodup items = true) :
    ∀ t ls b, BodyItem.block t ls b ∈ sortResourceTop items →
      t = resourceChars →
      ((bodyAttrs b).map Prod.fst).Pairwise (fun a b => strLt a b = true) := by
  intro t ls b hmem ht
  subst ht
  rw [sortResourceTop] at hmem
  obtain ⟨i, hi, hfi⟩ := List.mem_map.mp hmem
  cases i with
  | attr n e => exact absurd hfi (by simp)
  | newline => exact absurd hfi (by simp)
  | block t' ls' b' =>
    have hnd' : ((bodyAttrs b').map Prod.fst).Nodup :=
      of_decide_eq_true (List.all_eq_true.mp h _ hi)
    have hfi2 : (if t' = resourceChars then BodyItem.block t' ls' (sortResourceBody b')
        else BodyItem.block t' ls' b') = BodyItem.block resourceChars ls b := hfi
    by_cases ht' : t' = resourceChars
    · rw [if_pos ht'] at hfi2
      injection hfi2 with hfi1 hfiL hfi3
      subst hfi3
      by_cases hlen : 0 < (bodyAttrs b').length
      · rw [sortResourceBody_names b' hlen]
        exact sortB_strLt_strict _ hnd'
      · have hnil : bodyAttrs b' = [] := List.length_eq_zero.mp (by omega)
        rw [sortResourceBody, if_neg hlen, hnil]
        exact List.Pairwise.nil
    · rw [if_neg ht'] at hfi2
      injection hfi2 with hfi1 hfiRest
      exact absurd hfi1 ht'

/-- C3, witness: the concrete sorted output block has ascending attribute
names. -/
theorem c3_witness :
    topAttrNamesNodup resItems = true ∧
    ((bodyAttrs [BodyItem.attr ['a'] ['2'], BodyItem.attr ['b'] ['1']]).map
      Prod.fst).Pairwise (fun a b => strLt a b = true) := by
  refine ⟨by decide, ?_⟩
  refine c3_sort_correctness resItems (by decide) resourceChars []
    [BodyItem.attr ['a'] ['2'], BodyItem.attr ['b'] ['1']] ?_ rfl
  show _ ∈ sortResourceTop resItems
  rw [show sortResourceTop resItems =
    [BodyItem.block resourceChars []
      [BodyItem.attr ['a'] ['2'], BodyItem.attr ['b'] ['1']]] from rfl]
  exact List.mem_singleton_self _

/-- Body used by the C4 counterexample: attribute `b`, nested block `tags`,
attribute `a`, in that original interleaving. -/
def c4Body : List BodyItem :=
  [BodyItem.attr ['b'] ['1'], BodyItem.block ['t', 'a', 'g', 's'] [] [],
   BodyItem.attr ['a'] ['2']]

/-- C4, counterexample: on a body interleaving attributes with a nested
block, the sorter outputs the nested block FIRST and the sorted attributes
AFTER it — `RemoveAttribute` deletes the attributes in place and
`SetAttributeRaw` appends each one at the end of the body — not "all
attributes first, followed by the nested blocks" as the claim states. -/
theorem c4_counterexample :
    sortResourceBody c4Body =
      [BodyItem.block ['t', 'a', 'g', 's'] [] [],
       BodyItem.attr ['a'] ['2'], BodyItem.attr ['b'] ['1']] ∧
    sortResourceBody c4Body ≠
      [BodyItem.attr ['a'] ['2'], BodyItem.attr ['b'] ['1'],
       BodyItem.block ['t', 'a', 'g', 's'] [] []] := by
  constructor
  · rfl
  · intro hEq
    rw [show sortResourceBody c4Body =
      [BodyItem.block ['t', 'a', 'g', 's'] [] [],
       BodyItem.attr ['a'] ['2'], BodyItem.attr ['b'] ['1']] from rfl] at hEq
    injection hEq with h1 _
    exact BodyItem.noConfusion h1

/-- C4, amended: the sorter rewrites every target body so that the
non-attribute items (nested blocks) come first, keeping their original
relative order, followed by all the attributes at the end in ascending
ordinal name order, with the attribute pairs preserved as a multiset. -/
theorem c4_amended (b : List BodyItem)
    (h : ((bodyAttrs b).map Prod.fst).Nodup) :
    ∃ attrsPart : List BodyItem,
      sortResourceBody b = b.filter (fun i => !(isAttrItem i)) ++ attrsPart ∧
      (∀ i ∈ attrsPart, isAttrItem i = true) ∧
      ((bodyAttrs attrsPart).map Prod.fst).Pairwise (fun a b => strLt a b = true) ∧
      (bodyAttrs attrsPart : Multiset (List Char × List Char)) =
        (bodyAttrs b : Multiset (List Char × List Char)) := by
  by_cases hlen : 0 < (bodyAttrs b).length
  · refine ⟨(sortB strLt ((bodyAttrs b).map Prod.fst)).map
      (fun n => BodyItem.attr n ((lookupA n (bodyAttrs b)).getD [])), ?_, ?_, ?_, ?_⟩
    · rw [sortResourceBody, if_pos hlen]
    · intro i hi
      obtain ⟨n, _, rfl⟩ := List.mem_map.mp hi
      rfl
    · rw [bodyAttrs_map_attr, List.map_map]
      have hfst : ∀ n ∈ sortB strLt ((bodyAttrs b).map Prod.fst),
          (Prod.fst ∘ fun n => (n, (lookupA n (bodyAttrs b)).getD [])) n = n :=
        fun _ _ => rfl
      rw [List.map_congr_left hfst]
      simpa using sortB_strLt_strict _ h
    · rw [bodyAttrs_map_attr]
      exact Multiset.coe_eq_coe.mpr (sorted_lookup_perm (bodyAttrs b) h)
  · have hnil : bodyAttrs b = [] := List.length_eq_zero.mp (by omega)
    refine ⟨[], ?_, by simp, by simp [bodyAttrs], by simp [bodyAttrs, hnil]⟩
    rw [sortResourceBody, if_neg hlen, List.append_nil,
      filter_nonattr_of_no_attrs b hnil]

/-- C4, witness for the amended theorem at the counterexample body. -/
theorem c4_amended_witness :
    ((bodyAttrs c4Body).map Prod.fst).Nodup ∧
    (∃ attrsPart : List BodyItem,
      sortResourceBody c4Body =
        c4Body.filter (fun i => !(isAttrItem i)) ++ attrsPart ∧
      (∀ i ∈ attrsPart, isAttrItem i = true) ∧
      ((bodyAttrs attrsPart).map Prod.fst).Pairwise (fun a b => strLt a b = true) ∧
      (bodyAttrs attrsPart : Multiset (List Char × List Char)) =
        (bodyAttrs c4Body : Multiset (List Char × List Char))) :=
  ⟨by decide, c4_amended c4Body (by decide)⟩

/-- Top-level items used by the C5 counterexample and witness: variable
block `b`, resource block `r`, variable block `a`. -/
def c5Items : List BodyItem :=
  [BodyItem.block variableChars [['b']] [],
   BodyItem.block resourceChars [['r']] [],
   BodyItem.block variableChars [['a']] []]

/-- C5, counterexample: the block sorter removes the two variable blocks and
appends them, sorted, at the END of the top-level sequence — after the
resource block — not at the position of the first removed block (which was
first in the file) as the claim states. -/
theorem c5_counterexample :
    sortVariableTop c5Items =
      [BodyItem.block resourceChars [['r']] [],
       BodyItem.block variableChars [['a']] [], BodyItem.newline,
       BodyItem.block variableChars [['b']] []] ∧
    sortVariableTop c5Items ≠
      [BodyItem.block variableChars [['a']] [], BodyItem.newline,
       BodyItem.block variableChars [['b']] [],
       BodyItem.block resourceChars [['r']] []] := by
  constructor
  · rfl
  · intro hEq
    rw [show sortVariableTop c5Items =
      [BodyItem.block resourceChars [['r']] [],
       BodyItem.block variableChars [['a']] [], BodyItem.newline,
       BodyItem.block variableChars [['b']] []] from rfl] at hEq
    injection hEq with h1 _
    injection h1 with ht _ _
    exact absurd ht (by decide)

/-- C5, amended: when the top-level sequence has more than one `variable`
block (the code collects them regardless of their labels; the comparator
treats unlabelled blocks as never smaller), all of them are removed and
re-appended at the END of the sequence, sorted by first label in ordinal
order (stated here for distinct first labels on labelled blocks, where the
`sort.Slice` comparator is a strict total order and the sorted result is
unique), with one newline token between consecutive re-appended blocks; the
non-matching items keep their relative order, ending up before all the
variable blocks. -/
theorem c5_amended (items : List BodyItem)
    (hlen : 1 < (items.filter isVarBlock).length)
    (hlab : ∀ i ∈ items.filter isVarBlock, hasLabelB i = true)
    (hnd : ((items.filter isVarBlock).map firstLabel).Nodup) :
    ∃ vs : List BodyItem,
      sortVariableTop items =
        items.filter (fun i => !(isVarBlock i)) ++ appendWithNl vs ∧
      List.Perm vs (items.filter isVarBlock) ∧
      (vs.map firstLabel).Pairwise (fun a b => strLt a b = true) := by
  refine ⟨sortB varLess (items.filter isVarBlock), ?_,
    sortB_perm varLess (items.filter isVarBlock), ?_⟩
  · rw [sortVariableTop, if_pos hlen]
  · have hpw := sortB_pairwise (items.filter isVarBlock)
      (fun a _ b _ => varLess_asymm a b)
      (fun a _ b hb c _ h => varLess_total2 (hlab b hb) h)
    have hmemlab : ∀ i ∈ sortB varLess (items.filter isVarBlock),
        hasLabelB i = true := fun i hi => hlab i (mem_sortB hi)
    have hndvs : ((sortB varLess (items.filter isVarBlock)).map firstLabel).Nodup :=
      (((sortB_perm varLess (items.filter isVarBlock)).map firstLabel).nodup_iff).mpr hnd
    have hne : (sortB varLess (items.filter isVarBlock)).Pairwise
        (fun a b => firstLabel a ≠ firstLabel b) := List.pairwise_map.mp hndvs
    rw [List.pairwise_map]
    refine List.Pairwise.imp_of_mem ?_ (hpw.and hne)
    intro a b ha hb hab
    have hvl : varLess b a = strLt (firstLabel b) (firstLabel a) :=
      varLess_labeled (hmemlab b hb) (hmemlab a ha)
    rw [hvl] at hab
    cases hlt : strLt (firstLabel a) (firstLabel b)
    · exact absurd (strLt_conn _ _ hlt hab.1) hab.2
    · rfl

/-- C5, witness for the amended theorem at the counterexample items. -/
theorem c5_amended_witness :
    1 < (c5Items.filter isVarBlock).length ∧
    (∃ vs : List BodyItem,
      sortVariableTop c5Items =
        c5Items.filter (fun i => !(isVarBlock i)) ++ appendWithNl vs ∧
      List.Perm vs (c5Items.filter isVarBlock) ∧
      (vs.map firstLabel).Pairwise (fun a b => strLt a b = true)) :=
  ⟨by decide, c5_amended c5Items (by decide) (by decide) (by decide)⟩

/-- C6: parse-failure no-op.  Whenever the input does not parse, both sort
transforms return the input byte-for-byte unchanged instead of raising an
error. -/
theorem c6_parse_failure_noop (parse : List Char → Option (List BodyItem))
    (ser : List BodyItem → List Char) (inp : List Char)
    (h : parse inp = none) :
    sortResourceInputs parse ser inp = inp ∧
    sortVariableBlocks parse ser inp = inp := by
  constructor <;> simp [sortResourceInputs, sortVariableBlocks, h]

/-- C6, witness: at a concrete failing parse both transforms return the
input unchanged. -/
theorem c6_witness :
    sortResourceInputs (fun _ => none) (fun _ => []) ['x'] = ['x'] ∧
    sortVariableBlocks (fun _ => none) (fun _ => []) ['x'] = ['x'] :=
  ⟨(c6_parse_failure_noop (fun _ => none) (fun _ => []) ['x'] rfl).1,
   (c6_parse_failure_noop (fun _ => none) (fun _ => []) ['x'] rfl).2⟩

/-- C7: change-detection correctness.  `FormatFile` returns the formatted
bytes together with a changed flag, and the flag is `false` exactly when the
formatted bytes equal the input under exact byte comparison. -/
theorem c7_change_detection (cfg : Config) (render : List Char → List Char)
    (parse : List Char → Option (List BodyItem)) (ser : List BodyItem → List Char)
    (content : List Char) :
    (FormatFile cfg render parse ser content).1 =
      Format cfg render parse ser content ∧
    ((FormatFile cfg render parse ser content).2 = false ↔
      Format cfg render parse ser content = content) := by
  refine ⟨rfl, ?_⟩
  show (!(content == Format cfg render parse ser content)) = false ↔ _
  constructor
  · intro h
    have hbeq : (content == Format cfg render parse ser content) = true := by
      cases hb : (content == Format cfg render parse ser content)
      · rw [hb] at h
        exact Bool.noConfusion h
      · rfl
    exact (eq_of_beq hbeq).symm
  · intro h
    rw [h]
    simp

/-- C8, counterexample: (i) on `a\x7d`, newline, `b` the pass inserts a
blank line after the line `a\x7d`, which does not consist solely of a
closing brace — the regex keys on a line-final brace, not on a solo-brace
line; (ii) on `\x7d`, newline, `\x7d`, newline, `x` the second line consists
solely of a closing brace and is followed by the non-blank line `x`, yet no
blank line is inserted after it, because the non-overlapping scan consumed
that brace as the captured character of the first match.  In each conjunct
the first equation gives the pass's actual output and the disequation shows
it differs from the output the claim predicts. -/
theorem c8_counterexample :
    (padSingle ['a', rbC, '\n', 'b'] = ['a', rbC, '\n', '\n', 'b'] ∧
      padSingle ['a', rbC, '\n', 'b'] ≠ ['a', rbC, '\n', 'b']) ∧
    (padSingle [rbC, '\n', rbC, '\n', 'x'] = [rbC, '\n', '\n', rbC, '\n', 'x'] ∧
      padSingle [rbC, '\n', rbC, '\n', 'x'] ≠
        [rbC, '\n', '\n', rbC, '\n', '\n', 'x']) := by decide

/-- C8, amended: the pass inserts a second newline after line-FINAL closing
braces followed by a non-blank line (not only after lines consisting solely
of a closing brace), scanning left to right without re-examining replaced
text.  Precisely: (i) when the text contains no such occurrence the pass is
the identity — it inserts nothing anywhere else; and (ii) when no
closing-brace-newline pair is directly followed by another closing brace,
the output contains no unpadded occurrence — every line-final closing brace
followed by content gets its blank line.  (The counterexample shows (ii)'s
side condition is necessary: a consumed brace is skipped.) -/
theorem c8_amended :
    (∀ t : List Char, hasBareBrace t = false → padSingle t = t) ∧
    (∀ t : List Char, hasChain t = false → hasBareBrace (padSingle t) = false) :=
  ⟨padSingle_id_of_no_match, padSingle_no_bare_of_no_chain⟩

/-- C8, witness for the amended theorem: a text with no match is unchanged,
and a chain-free text is fully padded. -/
theorem c8_amended_witness :
    hasBareBrace ['a', '\n', 'b'] = false ∧
    padSingle ['a', '\n', 'b'] = ['a', '\n', 'b'] ∧
    hasChain ['a', rbC, '\n', 'b'] = false ∧
    hasBareBrace (padSingle ['a', rbC, '\n', 'b']) = false :=
  ⟨by decide, c8_amended.1 ['a', '\n', 'b'] (by decide),
   by decide, c8_amended.2 ['a', rbC, '\n', 'b'] (by decide)⟩

/-- C9: exit-code precedence, evaluated on the model of `Main`, `walkDir`
and `handleResult`.  The first conjunct exhibits the bug: with `--check`
set, a directory containing one `.tf` file that needs formatting exits 0,
because `walkDir` calls `handleResult` with a freshly allocated exit
variable (`new(int)`) — contradicting both the claim (which requires exit
code 3) and the adjacent source comment, which says the walk should let
`handleResult` determine the exit code.  The remaining conjuncts show the
claimed contract does hold for directly-named `.tf` files: a changed file
under `--check` yields 3, and an error on any file forces 1 regardless of
order. -/
theorem c9_exit_codes :
    mainExit true [PathSpec.dir [FOutcome.ok true]] = 0 ∧
    mainExit true [PathSpec.tfFile (FOutcome.ok true)] = 3 ∧
    mainExit true [PathSpec.tfFile (FOutcome.ok true),
      PathSpec.tfFile FOutcome.ioError] = 1 ∧
    mainExit true [PathSpec.tfFile FOutcome.ioError,
      PathSpec.tfFile (FOutcome.ok true)] = 1 ∧
    mainExit true [PathSpec.tfFile (FOutcome.ok true),
      PathSpec.tfFile (FOutcome.ok false)] = 3 ∧
    mainExit false [PathSpec.tfFile (FOutcome.ok true)] = 0 := by decide

/-- C10: the resource-specific blank-line pass.  (i) Every occurrence of a
closing brace followed by zero, one, or two newlines and then `resource`
plus a whitespace character is rewritten to the closing brace, exactly two
newlines, and the keyword with its following text unchanged; (ii) a text
containing no closing brace is returned unchanged — the pass rewrites
nothing else, in particular no other block type; (iii) with three or more
newlines between the brace and the keyword, nothing is rewritten. -/
theorem c10_resource_pass :
    (∀ (k : Nat) (c : Char) (rest : List Char), k ≤ 2 → isSpaceC c = true →
      resourcePass (rbC :: (List.replicate k '\n' ++ resourceChars ++ c :: rest)) =
        rbC :: '\n' :: '\n' :: (resourceChars ++ c :: resourcePass rest)) ∧
    (∀ t : List Char, rbC ∉ t → resourcePass t = t) ∧
    (∀ (k : Nat) (rest : List Char), 3 ≤ k →
      resourcePass (rbC :: (List.replicate k '\n' ++ resourceChars ++ rest)) =
        rbC :: (List.replicate k '\n' ++ resourceChars ++ resourcePass rest)) := by
  refine ⟨?_, resourcePass_id_of_no_brace, ?_⟩
  · intro k c rest hk hsp
    have hc6 : (((c = ' ' ∨ c = '\t') ∨ c = '\n') ∨ c = '\r') ∨
        c = Char.ofNat 12 := by
      simpa [isSpaceC] using hsp
    have hres : resourcePass (resourceChars ++ c :: rest) =
        resourceChars ++ c :: resourcePass rest := by
      rw [resourcePass_nomatch_copy resourceChars (c :: rest) (by decide),
        resourcePass_cons_nonbrace (ne_rbC_of_isSpaceC hsp)]
    interval_cases k <;> rcases hc6 with (((rfl | rfl) | rfl) | rfl) | rfl <;>
      · show rbC :: '\n' :: '\n' :: resourcePass (resourceChars ++ _ :: rest) = _
        rw [hres]
  · intro k rest hk
    obtain ⟨m, rfl⟩ : ∃ m, k = m + 3 := ⟨k - 3, by omega⟩
    have hn : ∀ x ∈ List.replicate (m + 3) '\n' ++ resourceChars, x ≠ rbC := by
      intro x hx
      rcases List.mem_append.mp hx with hx | hx
      · rw [List.eq_of_mem_replicate hx]
        decide
      · exact (by decide : ∀ y ∈ resourceChars, y ≠ rbC) x hx
    have hpre := resourcePass_nomatch_copy
      (List.replicate (m + 3) '\n' ++ resourceChars) rest hn
    have hrep : List.replicate (m + 3) '\n' =
        '\n' :: '\n' :: '\n' :: List.replicate m '\n' := rfl
    calc resourcePass (rbC :: (List.replicate (m + 3) '\n' ++ resourceChars ++ rest))
        = rbC :: resourcePass (List.replicate (m + 3) '\n' ++ resourceChars ++ rest) := by
          rw [hrep]
          simp only [List.cons_append]
          exact resourcePass_chain3 _
      _ = rbC :: (List.replicate (m + 3) '\n' ++ resourceChars ++ resourcePass rest) := by
          rw [hpre]

/-- C10, witness: a concrete rewrite with zero newlines and a trailing
space, and a concrete brace-free text left unchanged. -/
theorem c10_witness :
    (0 : Nat) ≤ 2 ∧ isSpaceC ' ' = true ∧
    resourcePass (rbC :: (List.replicate 0 '\n' ++ resourceChars ++ [' '])) =
      rbC :: '\n' :: '\n' :: (resourceChars ++ ' ' :: resourcePass []) ∧
    rbC ∉ ['a', 'b'] ∧ resourcePass ['a', 'b'] = ['a', 'b'] := by
  refine ⟨by decide, by decide, ?_, by decide, c10_resource_pass.2.1 ['a', 'b'] (by decide)⟩
  exact c10_resource_pass.1 0 ' ' [] (by decide) (by decide)

end Tffmt
